import Mathlib

/-!
Verification development for the content-defined chunking core of `iscc-rs`
(`src/did.rs`).

The Rust source is shallowly embedded as executable Lean definitions:

* machine integers (`u64`, `usize`) become `Nat`, with `% 2 ^ 64` at the one
  place where wraparound matters (`(pattern << 1).wrapping_add(gear)`);
* the byte source (`File`) is modelled as the list of its not-yet-read bytes;
  a successful `read` into a buffer of size `n` returns `take n` of the
  remaining bytes, which is the behaviour of `File::read` on a regular file.
  A second, fallible model (`popRead`/`ChunkE`) keeps the possibility of an
  I/O error so the `.unwrap()` calls of the source can be examined;
* the `while` loop of `chunk_length` becomes a recursion on the number of
  remaining iterations (`barrier - i`), which is exactly how often the loop
  body runs since `i` increases by 1 each iteration;
* the `Iterator::next` chain becomes a fuel-indexed recursion; one emitted
  chunk consumes at least one byte, so `total bytes + 1` fuel is always
  enough, keeping every definition computable by the kernel.

The gear table `CHUNKING_GEAR` lives in `src/constants.rs`, which is not part
of the provided sources; it is an external 256-entry constant by the spec, so
every definition is parametrised by an arbitrary table `gear : Nat → Nat`.
All theorems hold for every table, hence for the repository's.
-/

/-- `GEAR1_NORM` from `did.rs`. -/
def GEAR1_NORM : Nat := 40

/-- `GEAR1_MIN` from `did.rs`. -/
def GEAR1_MIN : Nat := 20

/-- `GEAR1_MAX` from `did.rs`. -/
def GEAR1_MAX : Nat := 640

/-- `GEAR1_MASK1` from `did.rs` (`0x0001_6118`). -/
def GEAR1_MASK1 : Nat := 0x00016118

/-- `GEAR1_MASK2` from `did.rs` (`0x0000_A0B1`). -/
def GEAR1_MASK2 : Nat := 0x0000A0B1

/-- `GEAR2_NORM` from `did.rs`. -/
def GEAR2_NORM : Nat := 4096

/-- `GEAR2_MIN` from `did.rs`. -/
def GEAR2_MIN : Nat := 2048

/-- `GEAR2_MAX` from `did.rs`. -/
def GEAR2_MAX : Nat := 65536

/-- `GEAR2_MASK1` from `did.rs` (`0x0003_5907_0353_0000`). -/
def GEAR2_MASK1 : Nat := 0x0003590703530000

/-- `GEAR2_MASK2` from `did.rs` (`0x0000_D900_0353_0000`). -/
def GEAR2_MASK2 : Nat := 0x0000D90003530000

/-- `HEAD_DID` from `did.rs`: the 1-byte component header `0x20`. -/
def HEAD_DID : Nat := 0x20

/-- A Parameter Set (phase): the five constants `chunk_length` receives.
The source passes the `GEAR1_*` respectively `GEAR2_*` constants
positionally; grouping them is only packaging. -/
structure Params where
  norm_size : Nat
  min_size : Nat
  max_size : Nat
  mask_1 : Nat
  mask_2 : Nat
deriving DecidableEq

/-- The fine phase: the `GEAR1_*` constants passed in the `counter < 100`
branch of `<Chunk as Iterator>::next`. -/
def fineParams : Params :=
  ⟨GEAR1_NORM, GEAR1_MIN, GEAR1_MAX, GEAR1_MASK1, GEAR1_MASK2⟩

/-- The coarse phase: the `GEAR2_*` constants passed in the `counter >= 100`
branch of `<Chunk as Iterator>::next`. -/
def coarseParams : Params :=
  ⟨GEAR2_NORM, GEAR2_MIN, GEAR2_MAX, GEAR2_MASK1, GEAR2_MASK2⟩

/-- The inner `while i < barrier` loop of `chunk_length`, embedded as a
recursion on the remaining iteration count `steps = barrier - i` (the loop
increments `i` by exactly 1 per iteration).  `Sum.inl i` models the early
`return i;` on a mask match; `Sum.inr (i, pattern)` models falling out of the
loop, carrying `i` and the accumulator to the next `(mask, barrier)` pair.
The pattern update `(pattern << 1).wrapping_add(gear)` on `u64` is
`(2 * pattern + g) % 2 ^ 64`. -/
def scanGo (gear : Nat → Nat) (data : List Nat) (mask : Nat) :
    Nat → Nat → Nat → Nat ⊕ (Nat × Nat)
  | 0, i, pattern => Sum.inr (i, pattern)
  | steps + 1, i, pattern =>
    if (2 * pattern + gear (data.getD i 0)) % 2 ^ 64 &&& mask = 0 then
      Sum.inl i
    else
      scanGo gear data mask steps (i + 1)
        ((2 * pattern + gear (data.getD i 0)) % 2 ^ 64)

/-- `chunk_length` from `did.rs`: the Boundary Evaluator.  The `for` loop
over the two-element array `[(mask_1, barrier_1), (mask_2, barrier_2)]` is
unrolled into the two `scanGo` calls; `i` starts at `min_size` and the
accumulator starts at 0 and is carried from the first sub-scan into the
second. -/
def chunk_length (gear : Nat → Nat) (data : List Nat)
    (norm_size min_size max_size mask_1 mask_2 : Nat) : Nat :=
  if data.length ≤ min_size then data.length
  else
    match scanGo gear data mask_1 (Nat.min norm_size data.length - min_size)
        min_size 0 with
    | Sum.inl i => i
    | Sum.inr (i, pattern) =>
      match scanGo gear data mask_2 (Nat.min max_size data.length - i)
          i pattern with
      | Sum.inl j => j
      | Sum.inr (j, _) => j

/-- Specification-side restatement of the rolling accumulator: `patAcc gear
data lo k` is the `pattern` value after the scan that started at position
`lo` with accumulator 0 has processed the `k` bytes `data[lo] .. data[lo+k-1]`.
The value tested at position `i` is therefore `patAcc gear data lo (i+1-lo)`.
There is a single recurrence for both sub-scans: the accumulator is never
reset. -/
def patAcc (gear : Nat → Nat) (data : List Nat) (lo : Nat) : Nat → Nat
  | 0 => 0
  | k + 1 => (2 * patAcc gear data lo k + gear (data.getD (lo + k) 0)) % 2 ^ 64

/-- Specification-side boundary test at position `i`: the accumulator value
tested at `i` (scan started at `min_size`), masked with the active mask —
`mask_1` before `min normal_size (len data)`, `mask_2` from there on. -/
def maskTest (gear : Nat → Nat) (data : List Nat)
    (norm_size min_size mask_1 mask_2 : Nat) (i : Nat) : Bool :=
  patAcc gear data min_size (i + 1 - min_size) &&&
    (if i < Nat.min norm_size data.length then mask_1 else mask_2) == 0

/-- The `Chunk` struct of `did.rs`: the iterator state.  `data` is the part
of the `File` not yet read (byte-list model of the regular file), `sect`
models the `section` buffer (Lean reserves the word used by the source).
-/
structure Chunk where
  data : List Nat
  counter : Nat
  sect : List Nat
deriving DecidableEq

/-- `Chunk::new`: one `read` into a `[0; GEAR1_MAX]` buffer, `.unwrap()`-ed;
on the regular-file model the read returns the first `GEAR1_MAX` remaining
bytes.  `counter` starts at 0. -/
def Chunk.new (src : List Nat) : Chunk :=
  ⟨src.drop GEAR1_MAX, 0, src.take GEAR1_MAX⟩

/-- The window after the conditional refill of `next`: when
`section.len() < max_size` of the active phase, one `read` into a
`[0; GEAR2_MAX]` buffer appends (on the regular-file model) the next
`GEAR2_MAX` remaining bytes. -/
def refillSec (p : Params) (c : Chunk) : List Nat :=
  if c.sect.length < p.max_size then c.sect ++ c.data.take GEAR2_MAX
  else c.sect

/-- The bytes still unread in the source after the conditional refill of
`next`. -/
def refillRest (p : Params) (c : Chunk) : List Nat :=
  if c.sect.length < p.max_size then c.data.drop GEAR2_MAX
  else c.data

/-- The boundary `next` computes: `chunk_length` on a window with the five
constants of the active phase. -/
def boundaryOf (gear : Nat → Nat) (p : Params) (sec : List Nat) : Nat :=
  chunk_length gear sec p.norm_size p.min_size p.max_size p.mask_1 p.mask_2

/-- The phase-parametrised body of `<Chunk as Iterator>::next`.  The two
branches of the source differ only in the constants they pass: refill when
`section.len() < max_size` of the active phase (reading into a
`[0; GEAR2_MAX]` buffer in either branch), stop when the buffer is empty,
otherwise cut at `chunk_length` and advance. -/
def nextWith (gear : Nat → Nat) (p : Params) (c : Chunk) :
    Option (List Nat × Chunk) :=
  if (refillSec p c).isEmpty then none
  else
    some ((refillSec p c).take (boundaryOf gear p (refillSec p c)),
      ⟨refillRest p c, c.counter + 1,
        (refillSec p c).drop (boundaryOf gear p (refillSec p c))⟩)

/-- `<Chunk as Iterator>::next`: dispatch on `counter < 100` between the
fine-phase and the coarse-phase copy of the body. -/
def Chunk.next (gear : Nat → Nat) (c : Chunk) : Option (List Nat × Chunk) :=
  if c.counter < 100 then nextWith gear fineParams c
  else nextWith gear coarseParams c

/-- The phase the engine uses while `counter = n`. -/
def phaseAt (n : Nat) : Params := if n < 100 then fineParams else coarseParams

/-- Driving the iterator to completion, with explicit fuel so the definition
is structural (each emitted chunk consumes at least one byte, so
`bytes + 1` fuel never runs out; `chunkRun` supplies exactly that). -/
def chunkRunF (gear : Nat → Nat) : Nat → Chunk → List (List Nat)
  | 0, _ => []
  | fuel + 1, c =>
    match Chunk.next gear c with
    | none => []
    | some (ch, c') => ch :: chunkRunF gear fuel c'

/-- All chunks the iterator emits from state `c`. -/
def chunkRun (gear : Nat → Nat) (c : Chunk) : List (List Nat) :=
  chunkRunF gear (c.data.length + c.sect.length + 1) c

/-- `data_chunks` from `did.rs`: the full chunk sequence of a byte source. -/
def data_chunks (gear : Nat → Nat) (src : List Nat) : List (List Nat) :=
  chunkRun gear (Chunk.new src)

/-- The iterator state after `n` successful `next` calls starting from `c`
(`none` once the stream has ended before step `n`). -/
def stateFrom (gear : Nat → Nat) (c : Chunk) : Nat → Option Chunk
  | 0 => some c
  | n + 1 =>
    (stateFrom gear c n).bind fun t => (Chunk.next gear t).map Prod.snd

/-- The iterator state just before the `n`-th chunk of `src` is produced. -/
def stateAt (gear : Nat → Nat) (src : List Nat) (n : Nat) : Option Chunk :=
  stateFrom gear (Chunk.new src) n

/-- Instrumented copy of `scanGo` that additionally records every index at
which the loop body reads `data` (the `data[i]` of the source). -/
def scanGoAcc (gear : Nat → Nat) (data : List Nat) (mask : Nat) :
    Nat → Nat → Nat → (Nat ⊕ (Nat × Nat)) × List Nat
  | 0, i, pattern => (Sum.inr (i, pattern), [])
  | steps + 1, i, pattern =>
    if (2 * pattern + gear (data.getD i 0)) % 2 ^ 64 &&& mask = 0 then
      (Sum.inl i, [i])
    else
      ((scanGoAcc gear data mask steps (i + 1)
          ((2 * pattern + gear (data.getD i 0)) % 2 ^ 64)).1,
        i :: (scanGoAcc gear data mask steps (i + 1)
          ((2 * pattern + gear (data.getD i 0)) % 2 ^ 64)).2)

/-- Instrumented copy of `chunk_length`, returning the boundary together
with every index at which the input window was read. -/
def chunk_lengthAcc (gear : Nat → Nat) (data : List Nat)
    (norm_size min_size max_size mask_1 mask_2 : Nat) : Nat × List Nat :=
  if data.length ≤ min_size then (data.length, [])
  else
    match scanGoAcc gear data mask_1 (Nat.min norm_size data.length - min_size)
        min_size 0 with
    | (Sum.inl i, acc) => (i, acc)
    | (Sum.inr (i, pattern), acc) =>
      match scanGoAcc gear data mask_2 (Nat.min max_size data.length - i)
          i pattern with
      | (Sum.inl j, acc2) => (j, acc ++ acc2)
      | (Sum.inr (j, _), acc2) => (j, acc ++ acc2)

/-- Outcome of one `read` call on the fallible byte-source model: either the
bytes the OS produced, or an I/O error. -/
inductive ReadResult where
  | ok (bytes : List Nat) : ReadResult
  | err : ReadResult
deriving DecidableEq

/-- Result of running a piece of Rust code that may panic: `.unwrap()` on an
`Err` aborts the computation. -/
inductive RustResult (α : Type) where
  | val (a : α) : RustResult α
  | panicked : RustResult α
deriving DecidableEq

/-- `data.read(&mut buffer).unwrap()` on the fallible model: the source is a
script of read outcomes; a buffer of size `n` receives at most `n` bytes; an
exhausted script reads 0 bytes (end of stream); an `err` outcome makes the
`.unwrap()` panic. -/
def popRead (script : List ReadResult) (n : Nat) :
    RustResult (List Nat × List ReadResult) :=
  match script with
  | [] => RustResult.val ([], [])
  | ReadResult.ok bs :: rest => RustResult.val (bs.take n, rest)
  | ReadResult.err :: _ => RustResult.panicked

/-- The `Chunk` state over the fallible source model. -/
structure ChunkE where
  script : List ReadResult
  counter : Nat
  sect : List Nat
deriving DecidableEq

/-- `Chunk::new` over the fallible source: `let n = data.read(&mut
buffer).unwrap();` — a failed read panics before any state is built. -/
def Chunk.newE (script : List ReadResult) : RustResult ChunkE :=
  match popRead script GEAR1_MAX with
  | RustResult.panicked => RustResult.panicked
  | RustResult.val (bs, rest) => RustResult.val ⟨rest, 0, bs⟩

/-- Phase-parametrised body of `next` over the fallible source; the refill
read is `.unwrap()`-ed exactly as in the source (lines 118 and 134). -/
def nextWithE (gear : Nat → Nat) (p : Params) (c : ChunkE) :
    RustResult (Option (List Nat × ChunkE)) :=
  if c.sect.length < p.max_size then
    match popRead c.script GEAR2_MAX with
    | RustResult.panicked => RustResult.panicked
    | RustResult.val (bs, rest) =>
      let sec := c.sect ++ bs
      if sec.isEmpty then RustResult.val none
      else
        let b := chunk_length gear sec p.norm_size p.min_size p.max_size
          p.mask_1 p.mask_2
        RustResult.val (some (sec.take b, ⟨rest, c.counter + 1, sec.drop b⟩))
  else
    if c.sect.isEmpty then RustResult.val none
    else
      let b := chunk_length gear c.sect p.norm_size p.min_size p.max_size
        p.mask_1 p.mask_2
      RustResult.val
        (some (c.sect.take b, ⟨c.script, c.counter + 1, c.sect.drop b⟩))

/-- `<Chunk as Iterator>::next` over the fallible source. -/
def nextE (gear : Nat → Nat) (c : ChunkE) :
    RustResult (Option (List Nat × ChunkE)) :=
  if c.counter < 100 then nextWithE gear fineParams c
  else nextWithE gear coarseParams c

/-- One output byte of `BitVec::to_bytes` (crate `bit_vec`): the first bit of
the block is the most significant bit of the byte; a block shorter than 8
bits is zero-padded at the low end, which coincides with `getD _ false`. -/
def byteOf (bs : List Bool) : Nat :=
  ((bs.take 8) ++ List.replicate (8 - (bs.take 8).length) false).foldl
    (fun a b => 2 * a + cond b 1 0) 0

/-- `BitVec::to_bytes` (crate `bit_vec`): pack a bit sequence MSB-first into
`⌈len/8⌉` bytes. -/
def bitvecToBytes (bs : List Bool) : List Nat :=
  (List.range ((bs.length + 7) / 8)).map fun j => byteOf (bs.drop (8 * j))

/-- The 9-byte Data-ID digest built in steps 1–6 of `data_id`: `HEAD_DID`
prepended to the packed least-significant bits of the 64 minhash values.
`h32` models `xxhash2::hash32` (chunk bytes and seed), `mh` models
`minimum_hash` (both are collaborators outside `src/did.rs`). -/
def dataDigest (gear : Nat → Nat) (h32 : List Nat → Nat → Nat)
    (mh : List Nat → Nat → List Nat) (file : List Nat) : List Nat :=
  HEAD_DID ::
    bitvecToBytes
      (((mh ((data_chunks gear file).map fun ch => h32 ch 0) 64).map
        fun x => (x &&& 1) == 1))

/-- `data_id` from `did.rs`, for a file that opened and read successfully
(modelled by its byte content): encode the digest with `enc`, which models
`base58::encode` (a collaborator outside `src/did.rs`). -/
def data_id (gear : Nat → Nat) (h32 : List Nat → Nat → Nat)
    (mh : List Nat → Nat → List Nat) (enc : List Nat → String)
    (file : List Nat) : String :=
  enc (dataDigest gear h32 mh file)

/-- All-zero gear table used to instantiate witnesses. -/
def gear0 : Nat → Nat := fun _ => 0

/-- Constant-16 gear table: on all-zero input every tested accumulator value
is `16 * (2 ^ k - 1)`, whose bit 4 is set, so neither `GEAR1_MASK1` nor
`GEAR1_MASK2` ever matches — the witness table for the hard-cutoff
scenario. -/
def gearC : Nat → Nat := fun _ => 16

/-- Unfolding equation for `patAcc`: one rolling-hash step. -/
lemma patAcc_succ (gear : Nat → Nat) (data : List Nat) (lo k : Nat) :
    patAcc gear data lo (k + 1) =
      (2 * patAcc gear data lo k + gear (data.getD (lo + k) 0)) % 2 ^ 64 :=
  rfl

/-- An early `return i` of the loop can only happen at a position inside the
loop's range. -/
lemma scanGo_inl_bounds (gear : Nat → Nat) (data : List Nat) (mask : Nat) :
    ∀ steps i pattern j,
      scanGo gear data mask steps i pattern = Sum.inl j →
      i ≤ j ∧ j < i + steps := by
  intro steps
  induction steps with
  | zero =>
    intro i pattern j h
    simp [scanGo] at h
  | succ s ih =>
    intro i pattern j h
    simp only [scanGo] at h
    split at h
    · simp only [Sum.inl.injEq] at h
      omega
    · have := ih _ _ _ h
      omega

/-- Falling out of the loop leaves `i` at exactly `start + steps`. -/
lemma scanGo_inr_eq (gear : Nat → Nat) (data : List Nat) (mask : Nat) :
    ∀ steps i pattern j q,
      scanGo gear data mask steps i pattern = Sum.inr (j, q) →
      j = i + steps := by
  intro steps
  induction steps with
  | zero =>
    intro i pattern j q h
    simp only [scanGo, Sum.inr.injEq, Prod.mk.injEq] at h
    omega
  | succ s ih =>
    intro i pattern j q h
    simp only [scanGo] at h
    split at h
    · simp at h
    · have := ih _ _ _ _ h
      omega

/-- If the first masked match of the rolling pattern (started at `lo` with
accumulator 0) within the loop's range is at offset `j`, the loop returns
position `lo + j`. -/
lemma scanGo_found (gear : Nat → Nat) (data : List Nat) (mask lo : Nat) :
    ∀ steps k j, k ≤ j → j < k + steps →
      patAcc gear data lo (j + 1) &&& mask = 0 →
      (∀ m, k ≤ m → m < j → ¬(patAcc gear data lo (m + 1) &&& mask = 0)) →
      scanGo gear data mask steps (lo + k) (patAcc gear data lo k) =
        Sum.inl (lo + j) := by
  intro steps
  induction steps with
  | zero =>
    intro k j h1 h2 _ _
    omega
  | succ s ih =>
    intro k j hkj hjs hmatch hfirst
    simp only [scanGo]
    rw [← patAcc_succ gear data lo k]
    by_cases hk : k = j
    · subst hk
      rw [if_pos hmatch]
    · have hklt : k < j := lt_of_le_of_ne hkj hk
      rw [if_neg (hfirst k le_rfl hklt)]
      have e : lo + k + 1 = lo + (k + 1) := by omega
      rw [e]
      exact ih (k + 1) j (by omega) (by omega) hmatch
        (fun m hm1 hm2 => hfirst m (by omega) hm2)

/-- If no masked match of the rolling pattern occurs in the loop's range,
the loop ends at `lo + k + steps` carrying the accumulator forward. -/
lemma scanGo_notfound (gear : Nat → Nat) (data : List Nat) (mask lo : Nat) :
    ∀ steps k,
      (∀ m, k ≤ m → m < k + steps →
        ¬(patAcc gear data lo (m + 1) &&& mask = 0)) →
      scanGo gear data mask steps (lo + k) (patAcc gear data lo k) =
        Sum.inr (lo + (k + steps), patAcc gear data lo (k + steps)) := by
  intro steps
  induction steps with
  | zero =>
    intro k _
    simp [scanGo]
  | succ s ih =>
    intro k h
    simp only [scanGo]
    rw [← patAcc_succ gear data lo k]
    rw [if_neg (h k le_rfl (by omega))]
    have e : lo + k + 1 = lo + (k + 1) := by omega
    rw [e]
    have := ih (k + 1) (fun m h1 h2 => h m (by omega) (by omega))
    have e2 : k + 1 + s = k + (s + 1) := by omega
    rw [e2] at this
    exact this

/-- A window no longer than `min_size` is returned whole. -/
lemma chunk_length_short (gear : Nat → Nat) (data : List Nat)
    (norm_size min_size max_size mask_1 mask_2 : Nat)
    (h : data.length ≤ min_size) :
    chunk_length gear data norm_size min_size max_size mask_1 mask_2 =
      data.length := by
  unfold chunk_length
  rw [if_pos h]

/-- The boundary never exceeds the window length. -/
lemma chunk_length_le_length (gear : Nat → Nat) (data : List Nat)
    (norm_size min_size max_size mask_1 mask_2 : Nat) :
    chunk_length gear data norm_size min_size max_size mask_1 mask_2 ≤
      data.length := by
  unfold chunk_length
  split
  · exact le_rfl
  · rename_i hlen
    have hb1 : Nat.min norm_size data.length ≤ data.length :=
      Nat.min_le_right _ _
    have hb2 : Nat.min max_size data.length ≤ data.length :=
      Nat.min_le_right _ _
    split
    · rename_i i h1
      have := scanGo_inl_bounds gear data mask_1 _ _ _ _ h1
      omega
    · rename_i i pattern h1
      have hi := scanGo_inr_eq gear data mask_1 _ _ _ _ _ h1
      split
      · rename_i j h2
        have := scanGo_inl_bounds gear data mask_2 _ _ _ _ h2
        omega
      · rename_i j q h2
        have := scanGo_inr_eq gear data mask_2 _ _ _ _ _ h2
        omega

/-- Under the Parameter Set invariant the boundary never exceeds
`max_size`. -/
lemma chunk_length_le_max (gear : Nat → Nat) (data : List Nat)
    (norm_size min_size max_size mask_1 mask_2 : Nat)
    (hmm : min_size ≤ max_size) (hnm : norm_size ≤ max_size) :
    chunk_length gear data norm_size min_size max_size mask_1 mask_2 ≤
      max_size := by
  unfold chunk_length
  split
  · omega
  · rename_i hlen
    have hb1 : Nat.min norm_size data.length ≤ norm_size :=
      Nat.min_le_left _ _
    have hb2 : Nat.min max_size data.length ≤ max_size :=
      Nat.min_le_left _ _
    split
    · rename_i i h1
      have := scanGo_inl_bounds gear data mask_1 _ _ _ _ h1
      omega
    · rename_i i pattern h1
      have hi := scanGo_inr_eq gear data mask_1 _ _ _ _ _ h1
      split
      · rename_i j h2
        have := scanGo_inl_bounds gear data mask_2 _ _ _ _ h2
        omega
      · rename_i j q h2
        have := scanGo_inr_eq gear data mask_2 _ _ _ _ _ h2
        omega

/-- On a window longer than `min_size` the boundary is at least
`min_size`. -/
lemma chunk_length_ge_min (gear : Nat → Nat) (data : List Nat)
    (norm_size min_size max_size mask_1 mask_2 : Nat)
    (h : min_size < data.length) :
    min_size ≤
      chunk_length gear data norm_size min_size max_size mask_1 mask_2 := by
  unfold chunk_length
  rw [if_neg (by omega)]
  split
  · rename_i i h1
    have := scanGo_inl_bounds gear data mask_1 _ _ _ _ h1
    omega
  · rename_i i pattern h1
    have hi := scanGo_inr_eq gear data mask_1 _ _ _ _ _ h1
    split
    · rename_i j h2
      have := scanGo_inl_bounds gear data mask_2 _ _ _ _ h2
      omega
    · rename_i j q h2
      have := scanGo_inr_eq gear data mask_2 _ _ _ _ _ h2
      omega

/-- On a nonempty window with positive `min_size` the boundary is
positive. -/
lemma chunk_length_pos (gear : Nat → Nat) (data : List Nat)
    (norm_size min_size max_size mask_1 mask_2 : Nat)
    (hne : data ≠ []) (hmin : 0 < min_size) :
    0 < chunk_length gear data norm_size min_size max_size mask_1 mask_2 := by
  have hlen : 0 < data.length := List.length_pos.mpr hne
  by_cases h : data.length ≤ min_size
  · rw [chunk_length_short gear data norm_size min_size max_size mask_1
      mask_2 h]
    exact hlen
  · have := chunk_length_ge_min gear data norm_size min_size max_size
      mask_1 mask_2 (by omega)
    omega

/-- A boundary below `min_size` happens only on the short-window path, where
the whole window is returned. -/
lemma chunk_length_lt_min (gear : Nat → Nat) (data : List Nat)
    (norm_size min_size max_size mask_1 mask_2 : Nat)
    (h : chunk_length gear data norm_size min_size max_size mask_1 mask_2 <
      min_size) :
    data.length ≤ min_size ∧
      chunk_length gear data norm_size min_size max_size mask_1 mask_2 =
        data.length := by
  by_cases hlen : data.length ≤ min_size
  · exact ⟨hlen, chunk_length_short gear data norm_size min_size max_size
      mask_1 mask_2 hlen⟩
  · have := chunk_length_ge_min gear data norm_size min_size max_size
      mask_1 mask_2 (by omega)
    omega

/-- `patAcc` at zero bytes processed. -/
lemma patAcc_zero (gear : Nat → Nat) (data : List Nat) (lo : Nat) :
    patAcc gear data lo 0 = 0 :=
  rfl

/-- `scanGo_found` specialised to the first sub-scan (start position `lo`,
accumulator 0). -/
lemma scanGo_found0 (gear : Nat → Nat) (data : List Nat) (mask lo : Nat)
    (steps j : Nat) (hj : j < steps)
    (hmatch : patAcc gear data lo (j + 1) &&& mask = 0)
    (hfirst : ∀ m, m < j → ¬(patAcc gear data lo (m + 1) &&& mask = 0)) :
    scanGo gear data mask steps lo 0 = Sum.inl (lo + j) := by
  have h := scanGo_found gear data mask lo steps 0 j (Nat.zero_le _)
    (by omega) hmatch (fun m _ hm => hfirst m hm)
  rw [Nat.add_zero, patAcc_zero] at h
  exact h

/-- `scanGo_notfound` specialised to the first sub-scan. -/
lemma scanGo_notfound0 (gear : Nat → Nat) (data : List Nat) (mask lo : Nat)
    (steps : Nat)
    (h : ∀ m, m < steps → ¬(patAcc gear data lo (m + 1) &&& mask = 0)) :
    scanGo gear data mask steps lo 0 =
      Sum.inr (lo + steps, patAcc gear data lo steps) := by
  have hh := scanGo_notfound gear data mask lo steps 0
    (fun m _ hm => h m (by omega))
  rw [Nat.add_zero, patAcc_zero, Nat.zero_add] at hh
  exact hh

/-- Claim C5: on a window longer than `min_size`, `chunk_length` scans from
`i = min_size` with the 64-bit accumulator of `patAcc` (initialised to 0,
updated by `pattern = (pattern << 1) + gear_table[data[i]]` with wraparound
addition, carried between the two sub-scans without reset), tests `mask_1`
on `[min_size, min norm_size len)` and then `mask_2` up to
`min max_size len`, and returns the first position whose active mask test
succeeds. -/
theorem c5_first_match (gear : Nat → Nat) (data : List Nat)
    (norm_size min_size max_size mask_1 mask_2 j : Nat)
    (hL : min_size < data.length)
    (h1 : min_size ≤ norm_size) (h2 : norm_size ≤ max_size)
    (hj1 : min_size ≤ j) (hj2 : j < Nat.min max_size data.length)
    (hmatch : maskTest gear data norm_size min_size mask_1 mask_2 j = true)
    (hfirst : ∀ i, i < j → min_size ≤ i →
      maskTest gear data norm_size min_size mask_1 mask_2 i = false) :
    chunk_length gear data norm_size min_size max_size mask_1 mask_2 = j := by
  have hb1L : Nat.min norm_size data.length ≤ data.length :=
    Nat.min_le_right _ _
  have hb1n : Nat.min norm_size data.length ≤ norm_size :=
    Nat.min_le_left _ _
  have hminb1 : min_size ≤ Nat.min norm_size data.length :=
    Nat.le_min.mpr ⟨h1, hL.le⟩
  have hb2L : Nat.min max_size data.length ≤ data.length :=
    Nat.min_le_right _ _
  have hb2m : Nat.min max_size data.length ≤ max_size :=
    Nat.min_le_left _ _
  have hb1b2 : Nat.min norm_size data.length ≤ Nat.min max_size data.length :=
    Nat.le_min.mpr ⟨le_trans hb1n h2, hb1L⟩
  simp only [maskTest, beq_iff_eq] at hmatch
  unfold chunk_length
  rw [if_neg (by omega)]
  by_cases hcase : j < Nat.min norm_size data.length
  · rw [if_pos hcase] at hmatch
    have hfound : scanGo gear data mask_1
        (Nat.min norm_size data.length - min_size) min_size 0 =
        Sum.inl (min_size + (j - min_size)) := by
      apply scanGo_found0 gear data mask_1 min_size _ (j - min_size)
        (by omega)
      · have e : j - min_size + 1 = j + 1 - min_size := by omega
        rw [e]
        exact hmatch
      · intro m hm
        have hi := hfirst (min_size + m) (by omega) (by omega)
        simp only [maskTest, beq_eq_false_iff_ne, ne_eq] at hi
        rw [if_pos (by omega : min_size + m < Nat.min norm_size data.length)]
          at hi
        have e : min_size + m + 1 - min_size = m + 1 := by omega
        rw [e] at hi
        exact hi
    have e : min_size + (j - min_size) = j := by omega
    rw [e] at hfound
    rw [hfound]
  · rw [if_neg hcase] at hmatch
    have hnf : scanGo gear data mask_1
        (Nat.min norm_size data.length - min_size) min_size 0 =
        Sum.inr (min_size + (Nat.min norm_size data.length - min_size),
          patAcc gear data min_size
            (Nat.min norm_size data.length - min_size)) := by
      apply scanGo_notfound0
      intro m hm
      have hi := hfirst (min_size + m) (by omega) (by omega)
      simp only [maskTest, beq_eq_false_iff_ne, ne_eq] at hi
      rw [if_pos (by omega : min_size + m < Nat.min norm_size data.length)]
        at hi
      have e : min_size + m + 1 - min_size = m + 1 := by omega
      rw [e] at hi
      exact hi
    have e1 : min_size + (Nat.min norm_size data.length - min_size) =
        Nat.min norm_size data.length := by omega
    rw [e1] at hnf
    rw [hnf]
    show (match scanGo gear data mask_2
        (Nat.min max_size data.length - Nat.min norm_size data.length)
        (Nat.min norm_size data.length)
        (patAcc gear data min_size
          (Nat.min norm_size data.length - min_size)) with
      | Sum.inl j2 => j2
      | Sum.inr (j2, _) => j2) = j
    have hfound2 : scanGo gear data mask_2
        (Nat.min max_size data.length - Nat.min norm_size data.length)
        (min_size + (Nat.min norm_size data.length - min_size))
        (patAcc gear data min_size
          (Nat.min norm_size data.length - min_size)) =
        Sum.inl (min_size + (j - min_size)) := by
      apply scanGo_found gear data mask_2 min_size _ _ (j - min_size)
        (by omega) (by omega)
      · have e : j - min_size + 1 = j + 1 - min_size := by omega
        rw [e]
        exact hmatch
      · intro m hm1 hm2
        have hi := hfirst (min_size + m) (by omega) (by omega)
        simp only [maskTest, beq_eq_false_iff_ne, ne_eq] at hi
        rw [if_neg (by omega : ¬(min_size + m < Nat.min norm_size data.length))]
          at hi
        have e : min_size + m + 1 - min_size = m + 1 := by omega
        rw [e] at hi
        exact hi
    rw [e1] at hfound2
    have e2 : min_size + (j - min_size) = j := by omega
    rw [e2] at hfound2
    rw [hfound2]

/-- Claim C5 witness: with the all-zero gear table the accumulator stays 0,
so the very first tested position `i = min_size = 20` matches `mask_1` and
is returned. -/
theorem c5_first_match_witness :
    chunk_length gear0 (List.replicate 30 7) 40 20 640 GEAR1_MASK1
      GEAR1_MASK2 = 20 :=
  c5_first_match gear0 (List.replicate 30 7) 40 20 640 GEAR1_MASK1
    GEAR1_MASK2 20 (by decide) (by decide) (by decide) (by decide)
    (by decide) (by decide) (by decide)

/-- Claim C6: a window no longer than `min_size` is returned whole; on a
longer window where no position in either sub-scan range passes its mask
test, `chunk_length` returns the hard cutoff `min max_size len`; in
particular a 50-byte all-zero window under `min_size = 20`,
`max_size = 640` whose masks never match in range yields 50 — the whole
input is one chunk. -/
theorem c6_hard_cutoff (gear : Nat → Nat) (data : List Nat)
    (norm_size min_size max_size mask_1 mask_2 : Nat) :
    (data.length ≤ min_size →
      chunk_length gear data norm_size min_size max_size mask_1 mask_2 =
        data.length) ∧
    (min_size < data.length → min_size ≤ norm_size → norm_size ≤ max_size →
      (∀ i, i < Nat.min max_size data.length → min_size ≤ i →
        maskTest gear data norm_size min_size mask_1 mask_2 i = false) →
      chunk_length gear data norm_size min_size max_size mask_1 mask_2 =
        Nat.min max_size data.length) ∧
    (data = List.replicate 50 0 → norm_size = 40 → min_size = 20 →
      max_size = 640 →
      (∀ i, i < 50 → 20 ≤ i →
        maskTest gear data norm_size min_size mask_1 mask_2 i = false) →
      chunk_length gear data norm_size min_size max_size mask_1 mask_2 =
        50) := by
  have part2 : min_size < data.length → min_size ≤ norm_size →
      norm_size ≤ max_size →
      (∀ i, i < Nat.min max_size data.length → min_size ≤ i →
        maskTest gear data norm_size min_size mask_1 mask_2 i = false) →
      chunk_length gear data norm_size min_size max_size mask_1 mask_2 =
        Nat.min max_size data.length := by
    intro hL h1 h2 hnone
    have hb1L : Nat.min norm_size data.length ≤ data.length :=
      Nat.min_le_right _ _
    have hb1n : Nat.min norm_size data.length ≤ norm_size :=
      Nat.min_le_left _ _
    have hminb1 : min_size ≤ Nat.min norm_size data.length :=
      Nat.le_min.mpr ⟨h1, hL.le⟩
    have hb2L : Nat.min max_size data.length ≤ data.length :=
      Nat.min_le_right _ _
    have hb2m : Nat.min max_size data.length ≤ max_size :=
      Nat.min_le_left _ _
    have hb1b2 : Nat.min norm_size data.length ≤
        Nat.min max_size data.length :=
      Nat.le_min.mpr ⟨le_trans hb1n h2, hb1L⟩
    unfold chunk_length
    rw [if_neg (by omega)]
    have hnf : scanGo gear data mask_1
        (Nat.min norm_size data.length - min_size) min_size 0 =
        Sum.inr (min_size + (Nat.min norm_size data.length - min_size),
          patAcc gear data min_size
            (Nat.min norm_size data.length - min_size)) := by
      apply scanGo_notfound0
      intro m hm
      have hi := hnone (min_size + m) (by omega) (by omega)
      simp only [maskTest, beq_eq_false_iff_ne, ne_eq] at hi
      rw [if_pos (by omega : min_size + m < Nat.min norm_size data.length)]
        at hi
      have e : min_size + m + 1 - min_size = m + 1 := by omega
      rw [e] at hi
      exact hi
    have e1 : min_size + (Nat.min norm_size data.length - min_size) =
        Nat.min norm_size data.length := by omega
    rw [e1] at hnf
    rw [hnf]
    show (match scanGo gear data mask_2
        (Nat.min max_size data.length - Nat.min norm_size data.length)
        (Nat.min norm_size data.length)
        (patAcc gear data min_size
          (Nat.min norm_size data.length - min_size)) with
      | Sum.inl j2 => j2
      | Sum.inr (j2, _) => j2) = Nat.min max_size data.length
    have hnf2 : scanGo gear data mask_2
        (Nat.min max_size data.length - Nat.min norm_size data.length)
        (min_size + (Nat.min norm_size data.length - min_size))
        (patAcc gear data min_size
          (Nat.min norm_size data.length - min_size)) =
        Sum.inr (min_size + ((Nat.min norm_size data.length - min_size) +
            (Nat.min max_size data.length - Nat.min norm_size data.length)),
          patAcc gear data min_size
            ((Nat.min norm_size data.length - min_size) +
              (Nat.min max_size data.length -
                Nat.min norm_size data.length))) := by
      apply scanGo_notfound
      intro m hm1 hm2
      have hi := hnone (min_size + m) (by omega) (by omega)
      simp only [maskTest, beq_eq_false_iff_ne, ne_eq] at hi
      rw [if_neg (by omega : ¬(min_size + m < Nat.min norm_size data.length))]
        at hi
      have e : min_size + m + 1 - min_size = m + 1 := by omega
      rw [e] at hi
      exact hi
    rw [e1] at hnf2
    have e2 : min_size + ((Nat.min norm_size data.length - min_size) +
        (Nat.min max_size data.length - Nat.min norm_size data.length)) =
        Nat.min max_size data.length := by omega
    rw [e2] at hnf2
    rw [hnf2]
  refine ⟨fun h => chunk_length_short gear data norm_size min_size max_size
    mask_1 mask_2 h, part2, ?_⟩
  intro hd hn hm hx hnomatch
  subst hd hn hm hx
  have hlen : (List.replicate 50 (0 : Nat)).length = 50 := by simp
  have hmin : Nat.min 640 (List.replicate 50 (0 : Nat)).length = 50 := by
    rw [hlen]
    decide
  have h := part2 (by omega) (by omega) (by omega) ?_
  · rw [hmin] at h
    exact h
  · intro i hi hge
    exact hnomatch i (by omega) hge

/-- Claim C6 witness: the constant-16 gear table keeps bit 4 of the
accumulator set on all-zero input, so no mask matches and the 50-byte
window is returned whole. -/
theorem c6_hard_cutoff_witness :
    chunk_length gearC (List.replicate 50 0) 40 20 640 GEAR1_MASK1
      GEAR1_MASK2 = 50 :=
  (c6_hard_cutoff gearC (List.replicate 50 0) 40 20 640 GEAR1_MASK1
    GEAR1_MASK2).2.2 rfl rfl rfl rfl (by decide)

/-- Claim C7, corrected, counterexample: the empty window, under the fine
Parameter Set (which satisfies the invariant), yields offset 0, violating
the claimed `0 < b` — the claim cannot hold for *every* window. -/
theorem c7_empty_window_cx :
    GEAR1_MIN ≤ GEAR1_NORM ∧ GEAR1_NORM ≤ GEAR1_MAX ∧
    chunk_length gear0 [] GEAR1_NORM GEAR1_MIN GEAR1_MAX GEAR1_MASK1
      GEAR1_MASK2 = 0 ∧
    ¬(0 < chunk_length gear0 [] GEAR1_NORM GEAR1_MIN GEAR1_MAX GEAR1_MASK1
      GEAR1_MASK2) := by
  decide

/-- Claim C7 as amended: for every *nonempty* window and every Parameter
Set with `0 < min_size ≤ normalized_size ≤ max_size`, the offset returned
by `chunk_length` satisfies `0 < b ≤ len(data)`. -/
theorem c7_offset_in_range (gear : Nat → Nat) (data : List Nat)
    (norm_size min_size max_size mask_1 mask_2 : Nat)
    (hne : data ≠ []) (h0 : 0 < min_size)
    (h1 : min_size ≤ norm_size) (h2 : norm_size ≤ max_size) :
    0 < chunk_length gear data norm_size min_size max_size mask_1 mask_2 ∧
      chunk_length gear data norm_size min_size max_size mask_1 mask_2 ≤
        data.length :=
  ⟨chunk_length_pos gear data norm_size min_size max_size mask_1 mask_2
      hne h0,
    chunk_length_le_length gear data norm_size min_size max_size mask_1
      mask_2⟩

/-- Claim C7 witness: a concrete 3-byte window under the fine Parameter
Set. -/
theorem c7_offset_in_range_witness :
    0 < chunk_length gear0 [1, 2, 3] GEAR1_NORM GEAR1_MIN GEAR1_MAX
        GEAR1_MASK1 GEAR1_MASK2 ∧
      chunk_length gear0 [1, 2, 3] GEAR1_NORM GEAR1_MIN GEAR1_MAX
        GEAR1_MASK1 GEAR1_MASK2 ≤ [1, 2, 3].length :=
  c7_offset_in_range gear0 [1, 2, 3] GEAR1_NORM GEAR1_MIN GEAR1_MAX
    GEAR1_MASK1 GEAR1_MASK2 (by decide) (by decide) (by decide) (by decide)

/-- The instrumented loop computes the same result as the loop itself. -/
lemma scanGoAcc_fst (gear : Nat → Nat) (data : List Nat) (mask : Nat) :
    ∀ steps i pattern,
      (scanGoAcc gear data mask steps i pattern).1 =
        scanGo gear data mask steps i pattern := by
  intro steps
  induction steps with
  | zero =>
    intro i pattern
    rfl
  | succ s ih =>
    intro i pattern
    simp only [scanGoAcc, scanGo]
    split
    · rfl
    · exact ih _ _

/-- Every index the loop reads lies inside the loop's range. -/
lemma scanGoAcc_mem (gear : Nat → Nat) (data : List Nat) (mask : Nat) :
    ∀ steps i pattern j,
      j ∈ (scanGoAcc gear data mask steps i pattern).2 →
      i ≤ j ∧ j < i + steps := by
  intro steps
  induction steps with
  | zero =>
    intro i pattern j h
    simp [scanGoAcc] at h
  | succ s ih =>
    intro i pattern j h
    simp only [scanGoAcc] at h
    split at h
    · simp only [List.mem_singleton] at h
      omega
    · simp only [List.mem_cons] at h
      rcases h with h | h
      · omega
      · have := ih _ _ _ h
        omega

/-- Claim C8: `chunk_length` reads its window only at indices strictly below
the window length — both sub-scan ranges are clipped to `len(data)` — and
(being a total Lean function computing the same result as its instrumented
copy) never faults.  `chunk_lengthAcc` records every index at which the
source expression `data[i]` is evaluated. -/
theorem c8_no_out_of_bounds (gear : Nat → Nat) (data : List Nat)
    (norm_size min_size max_size mask_1 mask_2 : Nat) :
    (chunk_lengthAcc gear data norm_size min_size max_size mask_1
        mask_2).1 =
      chunk_length gear data norm_size min_size max_size mask_1 mask_2 ∧
    ∀ j, j ∈ (chunk_lengthAcc gear data norm_size min_size max_size mask_1
        mask_2).2 → j < data.length := by
  have hb1L : Nat.min norm_size data.length ≤ data.length :=
    Nat.min_le_right _ _
  have hb2L : Nat.min max_size data.length ≤ data.length :=
    Nat.min_le_right _ _
  unfold chunk_lengthAcc chunk_length
  split
  · refine ⟨rfl, ?_⟩
    intro j h
    simp at h
  · rename_i hlen
    rcases hA : scanGoAcc gear data mask_1
        (Nat.min norm_size data.length - min_size) min_size 0
      with ⟨res, acc⟩
    have h1 : res = scanGo gear data mask_1
        (Nat.min norm_size data.length - min_size) min_size 0 := by
      have := scanGoAcc_fst gear data mask_1
        (Nat.min norm_size data.length - min_size) min_size 0
      rw [hA] at this
      simpa using this
    have hmemA : ∀ j ∈ acc, j < data.length := by
      intro j hj
      have hm : j ∈ (scanGoAcc gear data mask_1
          (Nat.min norm_size data.length - min_size) min_size 0).2 := by
        rw [hA]
        exact hj
      have := scanGoAcc_mem gear data mask_1 _ _ _ _ hm
      omega
    rw [← h1]
    cases res with
    | inl i =>
      exact ⟨rfl, fun j hj => hmemA j hj⟩
    | inr ip =>
      rcases ip with ⟨i, pattern⟩
      have hieq : i = min_size + (Nat.min norm_size data.length - min_size) :=
        scanGo_inr_eq gear data mask_1 _ _ _ _ _ h1.symm
      show (match scanGoAcc gear data mask_2
            (Nat.min max_size data.length - i) i pattern with
          | (Sum.inl j, acc2) => (j, acc ++ acc2)
          | (Sum.inr (j, _), acc2) => (j, acc ++ acc2)).1 =
          (match scanGo gear data mask_2
            (Nat.min max_size data.length - i) i pattern with
          | Sum.inl j => j
          | Sum.inr (j, _) => j) ∧
        ∀ j, j ∈ (match scanGoAcc gear data mask_2
            (Nat.min max_size data.length - i) i pattern with
          | (Sum.inl j, acc2) => (j, acc ++ acc2)
          | (Sum.inr (j, _), acc2) => (j, acc ++ acc2)).2 →
          j < data.length
      rcases hB : scanGoAcc gear data mask_2
          (Nat.min max_size data.length - i) i pattern
        with ⟨res2, acc2⟩
      have h2 : res2 = scanGo gear data mask_2
          (Nat.min max_size data.length - i) i pattern := by
        have := scanGoAcc_fst gear data mask_2
          (Nat.min max_size data.length - i) i pattern
        rw [hB] at this
        simpa using this
      have hmemB : ∀ j ∈ acc2, j < data.length := by
        intro j hj
        have hm : j ∈ (scanGoAcc gear data mask_2
            (Nat.min max_size data.length - i) i pattern).2 := by
          rw [hB]
          exact hj
        have := scanGoAcc_mem gear data mask_2 _ _ _ _ hm
        omega
      rw [← h2]
      cases res2 with
      | inl j2 =>
        refine ⟨rfl, ?_⟩
        intro j hj
        simp only [List.mem_append] at hj
        rcases hj with hj | hj
        · exact hmemA j hj
        · exact hmemB j hj
      | inr jq =>
        rcases jq with ⟨j2, q⟩
        refine ⟨rfl, ?_⟩
        intro j hj
        simp only [List.mem_append] at hj
        rcases hj with hj | hj
        · exact hmemA j hj
        · exact hmemB j hj

/-- Claim C8 witness: on a 25-byte window the single recorded read is at
index 20, inside the window. -/
theorem c8_no_out_of_bounds_witness :
    (chunk_lengthAcc gear0 (List.replicate 25 0) 40 20 640 GEAR1_MASK1
        GEAR1_MASK2).1 =
      chunk_length gear0 (List.replicate 25 0) 40 20 640 GEAR1_MASK1
        GEAR1_MASK2 ∧
    20 < (List.replicate 25 (0 : Nat)).length :=
  ⟨(c8_no_out_of_bounds gear0 (List.replicate 25 0) 40 20 640 GEAR1_MASK1
      GEAR1_MASK2).1,
    (c8_no_out_of_bounds gear0 (List.replicate 25 0) 40 20 640 GEAR1_MASK1
      GEAR1_MASK2).2 20 (by decide)⟩

/-- Numeric facts about both phases: positive minimum, `min < max`,
the Parameter Set invariant, and `max_size` within the read buffer size. -/
lemma phaseAt_facts (n : Nat) :
    0 < (phaseAt n).min_size ∧ (phaseAt n).min_size < (phaseAt n).max_size ∧
    (phaseAt n).min_size ≤ (phaseAt n).norm_size ∧
    (phaseAt n).norm_size ≤ (phaseAt n).max_size ∧
    (phaseAt n).max_size ≤ GEAR2_MAX := by
  unfold phaseAt
  split <;> decide

/-- `next` is the phase-parametrised body at the counter's phase. -/
lemma next_eq_phase (gear : Nat → Nat) (c : Chunk) :
    Chunk.next gear c = nextWith gear (phaseAt c.counter) c := by
  unfold Chunk.next phaseAt
  split <;> rfl

/-- Refilling splits no bytes: window plus remaining source is the whole
unemitted stream. -/
lemma refill_append (p : Params) (c : Chunk) :
    refillSec p c ++ refillRest p c = c.sect ++ c.data := by
  by_cases h : c.sect.length < p.max_size
  · simp only [refillSec, refillRest, if_pos h]
    rw [List.append_assoc, List.take_append_drop]
  · simp only [refillSec, refillRest, if_neg h]

/-- The refilled window is empty exactly when both the buffer and the
source are exhausted. -/
lemma refillSec_nil_iff (p : Params) (c : Chunk) (hmax : 0 < p.max_size) :
    refillSec p c = [] ↔ c.sect = [] ∧ c.data = [] := by
  by_cases h : c.sect.length < p.max_size
  · simp only [refillSec, if_pos h, List.append_eq_nil, List.take_eq_nil_iff]
    constructor
    · rintro ⟨h1, h2 | h2⟩
      · exact absurd h2 (by decide)
      · exact ⟨h1, h2⟩
    · rintro ⟨h1, h2⟩
      exact ⟨h1, Or.inr h2⟩
  · have hs : c.sect ≠ [] := by
      intro he
      rw [he] at h
      simp at h
      omega
    simp only [refillSec, if_neg h]
    constructor
    · intro h1
      exact absurd h1 hs
    · rintro ⟨h1, _⟩
      exact absurd h1 hs

/-- Inversion of a successful `nextWith` step. -/
lemma nextWith_some (gear : Nat → Nat) (p : Params) (c : Chunk)
    (ch : List Nat) (c' : Chunk)
    (h : nextWith gear p c = some (ch, c')) :
    ch = (refillSec p c).take (boundaryOf gear p (refillSec p c)) ∧
    c'.sect = (refillSec p c).drop (boundaryOf gear p (refillSec p c)) ∧
    c'.data = refillRest p c ∧
    c'.counter = c.counter + 1 ∧
    refillSec p c ≠ [] := by
  unfold nextWith at h
  split at h
  · exact absurd h (by simp)
  · rename_i hne
    simp only [Option.some.injEq, Prod.mk.injEq] at h
    obtain ⟨h1, h2⟩ := h
    subst h1
    subst h2
    refine ⟨rfl, rfl, rfl, rfl, ?_⟩
    intro he
    apply hne
    rw [he]
    rfl

/-- After a refill the window is shorter than the active `max_size` only
when the byte source is exhausted (a read of `GEAR2_MAX ≥ max_size` bytes
came back short). -/
lemma refill_short_exhausted (p : Params) (c : Chunk)
    (hmax2 : p.max_size ≤ GEAR2_MAX)
    (h : (refillSec p c).length < p.max_size) : refillRest p c = [] := by
  by_cases hr : c.sect.length < p.max_size
  · simp only [refillRest, if_pos hr]
    simp only [refillSec, if_pos hr, List.length_append, List.length_take]
      at h
    rcases Nat.lt_or_ge c.data.length GEAR2_MAX with hlt | hge
    · exact List.drop_eq_nil_iff_le.mpr (by omega)
    · exfalso
      rw [Nat.min_eq_left hge] at h
      omega
  · simp only [refillSec, if_neg hr] at h
    omega

/-- One successful `next` step: the emitted chunk and the new state
partition the old unemitted bytes; the chunk is nonempty and at most the
active `max_size` long; the byte total strictly decreases; the counter
increments; and a chunk shorter than the active `min_size` leaves a
terminal state. -/
lemma next_some_master (gear : Nat → Nat) (c : Chunk) (ch : List Nat)
    (c' : Chunk) (h : Chunk.next gear c = some (ch, c')) :
    ch ++ (c'.sect ++ c'.data) = c.sect ++ c.data ∧
    ch ≠ [] ∧
    c'.counter = c.counter + 1 ∧
    c'.data.length + c'.sect.length < c.data.length + c.sect.length ∧
    ch.length ≤ (phaseAt c.counter).max_size ∧
    (ch.length < (phaseAt c.counter).min_size →
      c'.sect = [] ∧ c'.data = []) := by
  rw [next_eq_phase] at h
  obtain ⟨hf1, hf2, hf3, hf4, hf5⟩ := phaseAt_facts c.counter
  obtain ⟨hch, hsect, hdata, hcnt, hne⟩ := nextWith_some _ _ _ _ _ h
  have hbdef : boundaryOf gear (phaseAt c.counter)
      (refillSec (phaseAt c.counter) c) =
      chunk_length gear (refillSec (phaseAt c.counter) c)
        (phaseAt c.counter).norm_size (phaseAt c.counter).min_size
        (phaseAt c.counter).max_size (phaseAt c.counter).mask_1
        (phaseAt c.counter).mask_2 := rfl
  have hble : boundaryOf gear (phaseAt c.counter)
      (refillSec (phaseAt c.counter) c) ≤
      (refillSec (phaseAt c.counter) c).length := by
    rw [hbdef]
    exact chunk_length_le_length _ _ _ _ _ _ _
  have hbpos : 0 < boundaryOf gear (phaseAt c.counter)
      (refillSec (phaseAt c.counter) c) := by
    rw [hbdef]
    exact chunk_length_pos _ _ _ _ _ _ _ hne hf1
  have hbmax : boundaryOf gear (phaseAt c.counter)
      (refillSec (phaseAt c.counter) c) ≤ (phaseAt c.counter).max_size := by
    rw [hbdef]
    exact chunk_length_le_max _ _ _ _ _ _ _ (by omega) hf4
  have hconcat : ch ++ c'.sect = refillSec (phaseAt c.counter) c := by
    rw [hch, hsect]
    exact List.take_append_drop _ _
  have hcat2 : ch ++ (c'.sect ++ c'.data) = c.sect ++ c.data := by
    rw [← List.append_assoc, hconcat, hdata]
    exact refill_append _ _
  have hchlen : ch.length = boundaryOf gear (phaseAt c.counter)
      (refillSec (phaseAt c.counter) c) := by
    rw [hch, List.length_take]
    exact Nat.min_eq_left hble
  have hchne : ch ≠ [] := by
    intro he
    rw [he] at hchlen
    simp at hchlen
    omega
  have hlen := congrArg List.length hcat2
  simp only [List.length_append] at hlen
  have hchpos : 0 < ch.length := List.length_pos.mpr hchne
  refine ⟨hcat2, hchne, hcnt, by omega, by omega, ?_⟩
  intro hshort
  rw [hchlen, hbdef] at hshort
  obtain ⟨hwin, hbeq⟩ := chunk_length_lt_min _ _ _ _ _ _ _ hshort
  have hsect2 : c'.sect = [] := by
    rw [hsect]
    apply List.drop_eq_nil_iff_le.mpr
    rw [hbdef, hbeq]
  refine ⟨hsect2, ?_⟩
  by_cases hr : c.sect.length < (phaseAt c.counter).max_size
  · rw [hdata]
    simp only [refillRest, if_pos hr]
    simp only [refillSec, if_pos hr, List.length_append, List.length_take]
      at hwin
    rcases Nat.lt_or_ge c.data.length GEAR2_MAX with hlt | hge
    · exact List.drop_eq_nil_iff_le.mpr (by omega)
    · exfalso
      rw [Nat.min_eq_left hge] at hwin
      omega
  · exfalso
    simp only [refillSec, if_neg hr] at hwin
    omega

/-- Claim C3: whenever a `next` step hands the Boundary Evaluator a window
(`chunk` ++ leftover buffer) shorter than the active phase's `max_size`,
no bytes remain in the source. -/
theorem c3_readahead_invariant (gear : Nat → Nat) (c : Chunk)
    (ch : List Nat) (c' : Chunk)
    (h : Chunk.next gear c = some (ch, c'))
    (hshort : (ch ++ c'.sect).length < (phaseAt c.counter).max_size) :
    c'.data = [] := by
  rw [next_eq_phase] at h
  obtain ⟨hch, hsect, hdata, _, _⟩ := nextWith_some _ _ _ _ _ h
  have hcs : ch ++ c'.sect = refillSec (phaseAt c.counter) c := by
    rw [hch, hsect]
    exact List.take_append_drop _ _
  rw [hcs] at hshort
  rw [hdata]
  exact refill_short_exhausted _ _ (phaseAt_facts c.counter).2.2.2.2 hshort

/-- Claim C3 witness: one step on the one-byte source `[5]`. -/
theorem c3_readahead_invariant_witness :
    (⟨[], 1, []⟩ : Chunk).data = ([] : List Nat) :=
  c3_readahead_invariant gear0 (Chunk.new [5]) [5] ⟨[], 1, []⟩ (by decide)
    (by decide)

/-- `next` signals the end exactly when buffer and source are both
exhausted. -/
lemma next_none_iff (gear : Nat → Nat) (c : Chunk) :
    Chunk.next gear c = none ↔ c.sect = [] ∧ c.data = [] := by
  obtain ⟨hf1, hf2, _, _, _⟩ := phaseAt_facts c.counter
  have hmax : 0 < (phaseAt c.counter).max_size := by omega
  rw [next_eq_phase]
  unfold nextWith
  constructor
  · intro h
    split at h
    · rename_i he
      exact (refillSec_nil_iff _ _ hmax).mp (List.isEmpty_iff.mp he)
    · simp at h
  · rintro ⟨h1, h2⟩
    rw [if_pos (List.isEmpty_iff.mpr
      ((refillSec_nil_iff _ _ hmax).mpr ⟨h1, h2⟩))]

/-- Concatenating everything the engine still emits from a state
reproduces that state's unemitted bytes. -/
lemma chunkRunF_flatten (gear : Nat → Nat) :
    ∀ fuel c, c.data.length + c.sect.length < fuel →
      (chunkRunF gear fuel c).flatten = c.sect ++ c.data := by
  intro fuel
  induction fuel with
  | zero =>
    intro c h
    omega
  | succ f ih =>
    intro c h
    cases hn : Chunk.next gear c with
    | none =>
      obtain ⟨h1, h2⟩ := (next_none_iff gear c).mp hn
      simp [chunkRunF, hn, h1, h2]
    | some x =>
      rcases x with ⟨ch, c'⟩
      obtain ⟨hcat, _, _, hdec, _, _⟩ := next_some_master gear c ch c' hn
      simp only [chunkRunF, hn, List.flatten_cons]
      rw [ih c' (by omega)]
      exact hcat

/-- Every chunk the engine emits is nonempty. -/
lemma chunkRunF_chunk_ne (gear : Nat → Nat) :
    ∀ fuel c ch, ch ∈ chunkRunF gear fuel c → ch ≠ [] := by
  intro fuel
  induction fuel with
  | zero =>
    intro c ch h
    simp [chunkRunF] at h
  | succ f ih =>
    intro c ch h
    cases hn : Chunk.next gear c with
    | none =>
      simp [chunkRunF, hn] at h
    | some x =>
      rcases x with ⟨ch2, c'⟩
      simp only [chunkRunF, hn, List.mem_cons] at h
      rcases h with rfl | h
      · exact (next_some_master gear c ch c' hn).2.1
      · exact ih c' ch h

/-- Claim C1: for every finite byte source the chunk sequence is a finite
list of nonempty chunks whose in-order concatenation is exactly the source
(no gaps, overlaps or duplication), and the empty source yields the empty
sequence with no trailing empty chunk. -/
theorem c1_coverage (gear : Nat → Nat) (src : List Nat) :
    (data_chunks gear src).flatten = src ∧
    (∀ ch ∈ data_chunks gear src, ch ≠ []) ∧
    data_chunks gear [] = [] := by
  refine ⟨?_, ?_, ?_⟩
  · have h := chunkRunF_flatten gear
      ((Chunk.new src).data.length + (Chunk.new src).sect.length + 1)
      (Chunk.new src) (by omega)
    calc (data_chunks gear src).flatten
        = (Chunk.new src).sect ++ (Chunk.new src).data := h
      _ = src := List.take_append_drop _ _
  · intro ch h
    exact chunkRunF_chunk_ne gear _ _ ch h
  · have hn : Chunk.next gear (Chunk.new []) = none :=
      (next_none_iff _ _).mpr ⟨rfl, rfl⟩
    show chunkRunF gear 1 (Chunk.new []) = []
    simp [chunkRunF, hn]

/-- Per-chunk bounds along the whole run, phase-indexed by the counter. -/
lemma chunkRunF_bounds (gear : Nat → Nat) :
    ∀ fuel c, c.data.length + c.sect.length < fuel →
      ∀ i, i < (chunkRunF gear fuel c).length →
        ((chunkRunF gear fuel c).getD i []).length ≤
          (phaseAt (c.counter + i)).max_size ∧
        (i + 1 < (chunkRunF gear fuel c).length →
          (phaseAt (c.counter + i)).min_size ≤
            ((chunkRunF gear fuel c).getD i []).length) := by
  intro fuel
  induction fuel with
  | zero =>
    intro c h
    omega
  | succ f ih =>
    intro c h i hi
    cases hn : Chunk.next gear c with
    | none =>
      simp [chunkRunF, hn] at hi
    | some x =>
      rcases x with ⟨ch, c'⟩
      obtain ⟨hcat, hne, hcnt, hdec, hmax, hshort⟩ :=
        next_some_master gear c ch c' hn
      simp only [chunkRunF, hn] at hi ⊢
      cases i with
      | zero =>
        simp only [List.getD_cons_zero]
        refine ⟨hmax, ?_⟩
        intro h2
        by_contra hlt
        push_neg at hlt
        obtain ⟨hs1, hs2⟩ := hshort hlt
        have hnone : Chunk.next gear c' = none :=
          (next_none_iff _ _).mpr ⟨hs1, hs2⟩
        have htail : chunkRunF gear f c' = [] := by
          cases f with
          | zero => rfl
          | succ f2 => simp [chunkRunF, hnone]
        rw [htail] at h2
        simp at h2
      | succ i2 =>
        simp only [List.getD_cons_succ]
        simp only [List.length_cons] at hi ⊢
        have hb := ih c' (by omega) i2 (by omega)
        have e : c'.counter + i2 = c.counter + (i2 + 1) := by omega
        rw [e] at hb
        refine ⟨hb.1, ?_⟩
        intro h2
        apply hb.2
        omega

/-- Claim C4: the `i`-th chunk of a run is at most the active phase's
`max_size` long, and at least `min_size` long unless it is the last chunk
of the stream. -/
theorem c4_chunk_bounds (gear : Nat → Nat) (src : List Nat) (i : Nat)
    (hi : i < (data_chunks gear src).length) :
    ((data_chunks gear src).getD i []).length ≤ (phaseAt i).max_size ∧
    (i + 1 < (data_chunks gear src).length →
      (phaseAt i).min_size ≤ ((data_chunks gear src).getD i []).length) := by
  have h := chunkRunF_bounds gear
    ((Chunk.new src).data.length + (Chunk.new src).sect.length + 1)
    (Chunk.new src) (by omega) i hi
  have e : (Chunk.new src).counter + i = i := by
    simp [Chunk.new]
  rw [e] at h
  exact h

/-- Claim C4 witness: the single chunk of the one-byte source `[7]`. -/
theorem c4_chunk_bounds_witness :
    ((data_chunks gear0 [7]).getD 0 []).length ≤ (phaseAt 0).max_size ∧
    (0 + 1 < (data_chunks gear0 [7]).length →
      (phaseAt 0).min_size ≤ ((data_chunks gear0 [7]).getD 0 []).length) :=
  c4_chunk_bounds gear0 [7] 0 (by decide)

/-- Front-unfolding of the iterated step. -/
lemma stateFrom_succ (gear : Nat → Nat) (c : Chunk) :
    ∀ n, stateFrom gear c (n + 1) =
      match Chunk.next gear c with
      | none => none
      | some (_, c') => stateFrom gear c' n := by
  intro n
  induction n with
  | zero =>
    show (stateFrom gear c 0).bind _ = _
    simp only [stateFrom, Option.some_bind]
    cases hn : Chunk.next gear c with
    | none => rfl
    | some x =>
      rcases x with ⟨ch, c'⟩
      rfl
  | succ n ih =>
    show (stateFrom gear c (n + 1)).bind _ = _
    rw [ih]
    cases hn : Chunk.next gear c with
    | none => rfl
    | some x =>
      rcases x with ⟨ch, c'⟩
      rfl

/-- The counter counts exactly the chunks emitted so far. -/
lemma stateFrom_counter (gear : Nat → Nat) :
    ∀ n c t, stateFrom gear c n = some t → t.counter = c.counter + n := by
  intro n
  induction n with
  | zero =>
    intro c t h
    simp only [stateFrom, Option.some.injEq] at h
    rw [← h]
    omega
  | succ n ih =>
    intro c t h
    rw [stateFrom_succ] at h
    cases hn : Chunk.next gear c with
    | none =>
      rw [hn] at h
      simp at h
    | some x =>
      rcases x with ⟨ch, c'⟩
      rw [hn] at h
      have h1 := ih c' t h
      have h2 := (next_some_master gear c ch c' hn).2.2.1
      omega

/-- The `n`-th chunk of a run is the one the step from the `n`-th state
emits. -/
lemma chunkRunF_get? (gear : Nat → Nat) :
    ∀ n fuel c, c.data.length + c.sect.length < fuel →
      (chunkRunF gear fuel c).get? n =
        (stateFrom gear c n).bind
          (fun t => (Chunk.next gear t).map Prod.fst) := by
  intro n
  induction n with
  | zero =>
    intro fuel c h
    cases fuel with
    | zero => omega
    | succ f =>
      cases hn : Chunk.next gear c with
      | none =>
        simp [chunkRunF, hn, stateFrom]
      | some x =>
        rcases x with ⟨ch, c'⟩
        simp [chunkRunF, hn, stateFrom]
  | succ n ih =>
    intro fuel c h
    cases fuel with
    | zero => omega
    | succ f =>
      rw [stateFrom_succ]
      cases hn : Chunk.next gear c with
      | none =>
        simp [chunkRunF, hn]
      | some x =>
        rcases x with ⟨ch, c'⟩
        have hdec := (next_some_master gear c ch c' hn).2.2.2.1
        simp only [chunkRunF, hn, List.get?_cons_succ]
        exact ih f c' (by omega)

/-- Claim C9: the state before the `n`-th chunk carries counter `n` (the
counter starts at 0, increments by one per chunk and is never reset), the
step from it dispatches to the fine Parameter Set exactly when `n < 100`
and to the coarse one exactly when `n ≥ 100`, and the `n`-th emitted chunk
is the one that step produces.  Since the phase is determined by `n < 100`
alone, the fine-to-coarse transition happens at most once and is never
reversed within a session. -/
theorem c9_phase_schedule (gear : Nat → Nat) (src : List Nat) (n : Nat)
    (t : Chunk) (h : stateAt gear src n = some t) :
    t.counter = n ∧
    Chunk.next gear t =
      nextWith gear (if n < 100 then fineParams else coarseParams) t ∧
    (data_chunks gear src).get? n = (Chunk.next gear t).map Prod.fst := by
  have hcnt : t.counter = n := by
    have := stateFrom_counter gear n (Chunk.new src) t h
    simpa [Chunk.new] using this
  refine ⟨hcnt, ?_, ?_⟩
  · have := next_eq_phase gear t
    rw [hcnt] at this
    exact this
  · have hg := chunkRunF_get? gear n
      ((Chunk.new src).data.length + (Chunk.new src).sect.length + 1)
      (Chunk.new src) (by omega)
    calc (data_chunks gear src).get? n
        = (stateFrom gear (Chunk.new src) n).bind
            (fun u => (Chunk.next gear u).map Prod.fst) := hg
      _ = (Chunk.next gear t).map Prod.fst := by
          have h2 : stateFrom gear (Chunk.new src) n = some t := h
          rw [h2]
          rfl

/-- Claim C9 witness: step 0 on the one-byte source `[1]`. -/
theorem c9_phase_schedule_witness :
    (⟨[], 0, [1]⟩ : Chunk).counter = 0 ∧
    Chunk.next gear0 (⟨[], 0, [1]⟩ : Chunk) =
      nextWith gear0 (if 0 < 100 then fineParams else coarseParams)
        (⟨[], 0, [1]⟩ : Chunk) ∧
    (data_chunks gear0 [1]).get? 0 =
      (Chunk.next gear0 (⟨[], 0, [1]⟩ : Chunk)).map Prod.fst :=
  c9_phase_schedule gear0 [1] 0 ⟨[], 0, [1]⟩ (by decide)

/-- Claim C2 exhibit: on a byte source whose next read fails, the code
panics — in `Chunk::new` and in both phases of `next` the read's `Result`
is `.unwrap()`-ed, and the signatures (`Chunk`, `Option<Vec<u8>>`) offer no
error channel at all, so the failure cannot reach the caller as a typed
result. -/
theorem c2_read_error_panics :
    Chunk.newE [ReadResult.err] = RustResult.panicked ∧
    nextE gear0 ⟨[ReadResult.err], 0, []⟩ = RustResult.panicked ∧
    nextE gear0 ⟨[ReadResult.err], 100, []⟩ = RustResult.panicked :=
  ⟨rfl, rfl, rfl⟩

/-- `bitvecToBytes` emits one byte per 8-bit block. -/
lemma bitvecToBytes_length (bs : List Bool) :
    (bitvecToBytes bs).length = (bs.length + 7) / 8 := by
  unfold bitvecToBytes
  rw [List.length_map, List.length_range]

/-- `byteOf` looks only at the first eight bits, with `false` padding —
exactly the `getD _ false` reads. -/
lemma byteOf_take8 (bs : List Bool) :
    byteOf bs = byteOf [bs.getD 0 false, bs.getD 1 false, bs.getD 2 false,
      bs.getD 3 false, bs.getD 4 false, bs.getD 5 false, bs.getD 6 false,
      bs.getD 7 false] := by
  rcases bs with _ | ⟨b0, _ | ⟨b1, _ | ⟨b2, _ | ⟨b3, _ | ⟨b4, _ | ⟨b5,
    _ | ⟨b6, _ | ⟨b7, t⟩⟩⟩⟩⟩⟩⟩⟩ <;> rfl

/-- Bit `7 - j` of a packed byte is the `j`-th input bit (MSB-first
packing). -/
lemma byteOf_testBit :
    ∀ (b0 b1 b2 b3 b4 b5 b6 b7 : Bool) (j : Fin 8),
      Nat.testBit (byteOf [b0, b1, b2, b3, b4, b5, b6, b7]) (7 - j.1) =
        [b0, b1, b2, b3, b4, b5, b6, b7].getD j.1 false := by
  decide

/-- `byteOf_testBit` with a plain `Nat` index. -/
lemma byteOf_testBit_nat (b0 b1 b2 b3 b4 b5 b6 b7 : Bool) (j : Nat)
    (hj : j < 8) :
    Nat.testBit (byteOf [b0, b1, b2, b3, b4, b5, b6, b7]) (7 - j) =
      [b0, b1, b2, b3, b4, b5, b6, b7].getD j false :=
  byteOf_testBit b0 b1 b2 b3 b4 b5 b6 b7 ⟨j, hj⟩

/-- Indexing the eight sampled bits is sampling at the index. -/
lemma list8_getD (L : List Bool) (m : Nat) (hm : m < 8) :
    ([L.getD 0 false, L.getD 1 false, L.getD 2 false, L.getD 3 false,
      L.getD 4 false, L.getD 5 false, L.getD 6 false,
      L.getD 7 false]).getD m false = L.getD m false := by
  interval_cases m <;> rfl

/-- Bit-level characterisation of `bitvecToBytes`: bit `7 - k % 8` of byte
`k / 8` is input bit `k`. -/
lemma bitvecToBytes_testBit (bs : List Bool) (k : Nat)
    (hk : k < bs.length) :
    Nat.testBit ((bitvecToBytes bs).getD (k / 8) 0) (7 - k % 8) =
      bs.getD k false := by
  have hj : k / 8 < (bs.length + 7) / 8 := by omega
  have h1 : (bitvecToBytes bs).getD (k / 8) 0 =
      byteOf (bs.drop (8 * (k / 8))) := by
    unfold bitvecToBytes
    rw [List.getD_eq_get?, List.get?_map, List.get?_range hj]
    rfl
  have h2 : (bs.drop (8 * (k / 8))).getD (k % 8) false =
      bs.getD k false := by
    rw [List.getD_eq_get?, List.getD_eq_get?, List.get?_drop]
    have e : 8 * (k / 8) + k % 8 = k := Nat.div_add_mod k 8
    rw [e]
  have h8 : k % 8 < 8 := Nat.mod_lt _ (by omega)
  rw [h1, byteOf_take8]
  rw [byteOf_testBit_nat _ _ _ _ _ _ _ _ _ h8]
  rw [list8_getD _ _ h8]
  exact h2

/-- Claim C10: for a file that opens and reads successfully, `data_id`
encodes (with the base58 collaborator) a 9-byte digest: the header byte
`0x20` followed by 8 bytes that pack, in stream order and MSB-first, the
least significant bit of each of the 64 `minimum_hash` values of the
per-chunk 32-bit hashes (seed 0). -/
theorem c10_data_id_digest (gear : Nat → Nat)
    (h32 : List Nat → Nat → Nat) (mh : List Nat → Nat → List Nat)
    (enc : List Nat → String) (file : List Nat)
    (hlen : (mh ((data_chunks gear file).map fun ch => h32 ch 0) 64).length
      = 64) :
    data_id gear h32 mh enc file = enc (dataDigest gear h32 mh file) ∧
    (dataDigest gear h32 mh file).length = 9 ∧
    (dataDigest gear h32 mh file).getD 0 0 = 0x20 ∧
    ∀ k, k < 64 →
      Nat.testBit ((dataDigest gear h32 mh file).getD (1 + k / 8) 0)
          (7 - k % 8) =
        (((mh ((data_chunks gear file).map fun ch => h32 ch 0) 64).getD
          k 0) &&& 1 == 1) := by
  refine ⟨rfl, ?_, rfl, ?_⟩
  · unfold dataDigest
    rw [List.length_cons, bitvecToBytes_length, List.length_map, hlen]
  · intro k hk
    unfold dataDigest
    have e : 1 + k / 8 = k / 8 + 1 := by omega
    rw [e, List.getD_cons_succ]
    rw [bitvecToBytes_testBit _ k (by rw [List.length_map, hlen]; omega)]
    rw [List.getD_eq_get?, List.get?_map]
    cases hv : (mh ((data_chunks gear file).map fun ch => h32 ch 0)
        64).get? k with
    | none =>
      rw [List.get?_eq_none] at hv
      omega
    | some v =>
      rw [Option.map_some', Option.getD_some]
      rw [List.getD_eq_get?, hv, Option.getD_some]

/-- Claim C10 witness: stub collaborators with a length-64 minhash. -/
theorem c10_data_id_digest_witness :
    data_id gear0 (fun _ _ => 0) (fun _ _ => List.replicate 64 0)
        (fun _ => "") [] =
      (fun _ : List Nat => "")
        (dataDigest gear0 (fun _ _ => 0)
          (fun _ _ => List.replicate 64 0) []) ∧
    (dataDigest gear0 (fun _ _ => 0)
      (fun _ _ => List.replicate 64 0) []).length = 9 ∧
    (dataDigest gear0 (fun _ _ => 0)
      (fun _ _ => List.replicate 64 0) []).getD 0 0 = 0x20 ∧
    ∀ k, k < 64 →
      Nat.testBit ((dataDigest gear0 (fun _ _ => 0)
          (fun _ _ => List.replicate 64 0) []).getD (1 + k / 8) 0)
          (7 - k % 8) =
        (((fun (_ : List Nat) (_ : Nat) => List.replicate 64 0)
            ((data_chunks gear0 []).map fun ch =>
              (fun (_ : List Nat) (_ : Nat) => 0) ch 0) 64).getD k 0
          &&& 1 == 1) :=
  c10_data_id_digest gear0 (fun _ _ => 0)
    (fun _ _ => List.replicate 64 0) (fun _ => "") [] (by decide)
